import Mathlib

/-!
Verification of the dag-js directed-graph engine against its specification.

The repository ships the test suite for the engine; the engine itself
(`dag.js` / `vertex.js`) is not among the provided sources, so every
definition below is modelled from the specification document and checked
against the behaviour the test suite pins down.
-/

namespace DagJs

/-- Modelled from the spec: the source file `vertex.js` is not among the provided
sources (only the test file importing `VertexDefinition` is).  A vertex is a record
with a unique `id`, an ordered sequence `adjacentTo` of outgoing-edge target ids,
and a caller-defined `payload`, modelled here as an association list from string
keys to string values (the engine treats payloads as opaque key/value data). -/
structure VertexDefinition where
  id : String
  adjacentTo : List String
  payload : List (String × String)
deriving DecidableEq

/-- A payload is an association list of string keys to string values. -/
abbrev Payload := List (String × String)

/-- Modelled from the spec: the graph store (`dag.js` is not among the provided
sources).  A mapping from id to vertex with unique keys and preserved insertion
order, modelled as the list of vertex records in insertion order. -/
abbrev Graph := List VertexDefinition

/-- Resolve an id to the stored vertex record (first record with that id). -/
def lookupVertex (g : Graph) (i : String) : Option VertexDefinition :=
  g.find? (fun w => w.id == i)

/-- Modelled from the spec: insertion of a single vertex — if its id is not
already a key in the store, add it as given; otherwise ignore it entirely. -/
def addVertex (g : Graph) (v : VertexDefinition) : Graph :=
  if g.any (fun w => w.id == v.id) then g else g ++ [v]

/-- Modelled from the spec: `addVertices(...vertices)` inserts each vertex of the
input sequence in order, ignoring those whose id already exists. -/
def addVertices (g : Graph) (vs : List VertexDefinition) : Graph :=
  vs.foldl addVertex g

/-- Modelled from the spec: `addEdge({from, to})` appends `to.id` to
`from.adjacentTo` unless the edge is a self-loop, a duplicate, or one of the two
endpoints is not registered in the store; in those cases it is a silent no-op. -/
def addEdge (g : Graph) (fid tid : String) : Graph :=
  match lookupVertex g fid, lookupVertex g tid with
  | some f, some _ =>
    if fid == tid then g
    else if f.adjacentTo.contains tid then g
    else g.map (fun w =>
      if w.id == fid then VertexDefinition.mk w.id (w.adjacentTo ++ [tid]) w.payload
      else w)
  | _, _ => g

/-- Modelled from the spec: `getAdjacentVerticesTo(vertex)` returns the ordered
sequence of vertex records referenced by `vertex.adjacentTo`, resolved from the
store; ids not found in the store are simply absent from the result. -/
def getAdjacentVerticesTo (g : Graph) (v : VertexDefinition) : List VertexDefinition :=
  v.adjacentTo.filterMap (lookupVertex g)

/-- Modelled from the spec: `getAdjacentVerticesFrom(vertex)` returns the ordered
sequence of all stored vertices whose `adjacentTo` contains `vertex.id`, in the
store's enumeration order. -/
def getAdjacentVerticesFrom (g : Graph) (v : VertexDefinition) : List VertexDefinition :=
  g.filter (fun w => w.adjacentTo.contains v.id)

/-- Look up a key in a payload association list (first matching entry). -/
def lookupKey (p : Payload) (k : String) : Option String :=
  (p.find? (fun kv => kv.1 == k)).map (fun kv => kv.2)

/-- Modelled from the spec: shallow merge of a payload with partial data — keys
in the partial data overwrite same-named keys in the existing payload, other
existing keys are preserved. -/
def mergePayload (old d : Payload) : Payload :=
  old.filter (fun kv => d.all (fun kv2 => kv2.1 != kv.1)) ++ d

/-- Modelled from the spec: `addMutation(vertex, partial data)` shallow-merges the
partial data into the stored vertex's payload, in place, leaving every other
vertex untouched. -/
def addMutation (g : Graph) (vid : String) (d : Payload) : Graph :=
  g.map (fun w =>
    if w.id == vid then VertexDefinition.mk w.id w.adjacentTo (mergePayload w.payload d)
    else w)

/-- The ids adjacent to the vertex with id `i`, resolved from the store: the
stored vertex's `adjacentTo` restricted to ids that are themselves stored
(the detector walks resolved vertex records, so unresolved ids are skipped). -/
def adjacentIds (g : Graph) (i : String) : List String :=
  match lookupVertex g i with
  | none => []
  | some w => w.adjacentTo.filter (fun j => (lookupVertex g j).isSome)

/-- Result of cycle detection: the flag and the deduplicated cycle list. -/
structure CycleResult where
  hasCycles : Bool
  cycles : List (List String)
deriving DecidableEq

/-- Modelled from the spec: the depth-first search of the cycle detector.  The
current path is carried as the ordered list of ids beginning with the root `v`;
`cur` is the last id of the path.  For every vertex adjacent to `cur` (resolved
from the store): reaching the root again with at least one traversed edge (the
spec's "current path length ≥ 1", lengths being counted in edges) records the
current path rotated to start just after the root; reaching any other id already
on the path abandons the branch; otherwise the path is extended, provided the
number of ids on it has not reached the depth bound `md` (the bound that makes a
cycle of `k` edges reportable exactly when `k ≤ md`, per the spec's depth
semantics and its depth-threshold example).  `fuel` only feeds termination and is
kept above the longest possible duplicate-free path by the caller. -/
def dfsVisit (g : Graph) (md : Nat) (v : String) :
    Nat → String → List String → List (List String)
  | 0, _, _ => []
  | fuel + 1, cur, path =>
    (adjacentIds g cur).flatMap (fun n =>
      if n = v then
        if 2 ≤ path.length then [path.tail ++ [v]] else []
      else if n ∈ path then []
      else if path.length < md then dfsVisit g md v fuel n (path ++ [n])
      else [])

/-- One deduplication step: keep the discovered cycle unless a rotation of it has
already been kept. -/
def dedupStep (acc : List (List String)) (c : List String) : List (List String) :=
  if acc.any (fun x => decide (x ~r c)) then acc else acc ++ [c]

/-- Modelled from the spec: deduplication of discovered cycles — two cycles that
are rotations of one another are the same cycle; the representative kept is the
one discovered first in traversal order. -/
def dedupCycles (l : List (List String)) : List (List String) :=
  l.foldl dedupStep []

/-- Modelled from the spec: `findCycles(options?)` runs the bounded DFS once per
stored vertex as potential cycle origin (in store enumeration order), then
deduplicates rotations.  `maxDepth` defaults to unbounded, modelled as the vertex
count: duplicate-free paths over stored ids can never be longer, so the bound
never fires.  `hasCycles` is true iff the deduplicated list is non-empty. -/
def findCycles (g : Graph) (opts : Option Nat) : CycleResult :=
  let md := opts.getD g.length
  let raw := g.flatMap (fun w => dfsVisit g md w.id (g.length + 1) w.id [w.id])
  let cycles := dedupCycles raw
  { hasCycles := !cycles.isEmpty, cycles := cycles }

/-- Modelled from the spec: the cycle detector is a stateless algorithm over the
store's adjacency relation (spec §2, §4.2) and the engine is single-threaded with
no suspension points (spec §5), so a `findCycles` call is modelled as returning
its result together with the store it leaves behind, which is the store it was
given. -/
def findCyclesS (g : Graph) (opts : Option Nat) : CycleResult × Graph :=
  (findCycles g opts, g)

/-- An elementary directed cycle of the stored graph: at least two ids (the store
invariants forbid self-loops), no repeated id, and every id followed — cyclically
— by one of the ids actually adjacent to it in the store. -/
def IsGraphCycle (g : Graph) (c : List String) : Prop :=
  2 ≤ c.length ∧ c.Nodup ∧
    ∀ i, i < c.length → c.getD ((i + 1) % c.length) "" ∈ adjacentIds g (c.getD i "")

/-- Graph states reachable through the public mutation surface from the empty
store, inserted vertices starting with empty adjacency. -/
inductive Reachable : Graph → Prop
  | empty : Reachable []
  | verticesStep (g : Graph) (vs : List VertexDefinition) :
      Reachable g → (∀ v ∈ vs, v.adjacentTo = []) → Reachable (addVertices g vs)
  | edgeStep (g : Graph) (fid tid : String) :
      Reachable g → Reachable (addEdge g fid tid)
  | mutationStep (g : Graph) (vid : String) (d : Payload) :
      Reachable g → Reachable (addMutation g vid d)

/-- The graph of the duplicate-cycle test: files `A.js`, `B.js`, `C.js` inserted in
that order with empty adjacency, then edges `A.js → B.js`, `B.js → C.js`,
`C.js → A.js` added in that order. -/
def threeFileGraph : Graph :=
  addEdge (addEdge (addEdge
    (addVertices [] [⟨"A.js", [], []⟩, ⟨"B.js", [], []⟩, ⟨"C.js", [], []⟩])
    "A.js" "B.js") "B.js" "C.js") "C.js" "A.js"

/-- The graph of the cycle-path-tracing test: vertices `a`, `b`, `c`, `d` inserted
in that order, then edges `c → d`, `b → c`, `a → b`, `d → a` added in that
order. -/
def tracedGraph : Graph :=
  addEdge (addEdge (addEdge (addEdge
    (addVertices [] [⟨"a", [], []⟩, ⟨"b", [], []⟩, ⟨"c", [], []⟩, ⟨"d", [], []⟩])
    "c" "d") "b" "c") "a" "b") "d" "a"

/-- The graph of the depth-threshold test: a single directed loop of length four,
`a → b → c → d → a`. -/
def fourCycleGraph : Graph :=
  addEdge (addEdge (addEdge (addEdge
    (addVertices [] [⟨"a", [], []⟩, ⟨"b", [], []⟩, ⟨"c", [], []⟩, ⟨"d", [], []⟩])
    "a" "b") "b" "c") "c" "d") "d" "a"

/-- Two vertices pointing at each other. -/
def mutualGraph : Graph :=
  addEdge (addEdge (addVertices [] [⟨"a", [], []⟩, ⟨"b", [], []⟩]) "a" "b") "b" "a"

theorem lookupVertex_eq_some {g : Graph} {i : String} {w : VertexDefinition}
    (h : lookupVertex g i = some w) : w.id = i ∧ w ∈ g := by
  refine ⟨?_, List.mem_of_find?_eq_some h⟩
  have hp := List.find?_some h
  simpa using hp

/-- C1: inserting `A.js`, `B.js`, `C.js` and the edges of the 3-cycle
`A.js → B.js → C.js → A.js` yields exactly one reported cycle, equal to
`[B.js, C.js, A.js]` — one representative, not three rotations and not one copy
per possible starting vertex. -/
theorem c1_three_cycle_reported_once :
    (findCycles threeFileGraph none).cycles.length = 1 ∧
      (findCycles threeFileGraph none).cycles = [["B.js", "C.js", "A.js"]] :=
  ⟨by decide, by decide⟩

/-- C3: inserting `a`, `b`, `c`, `d` and then the edges `c → d`, `b → c`,
`a → b`, `d → a` yields exactly the single cycle `[b, c, d, a]`, the rotation
starting at the DFS's first re-entry neighbour `b` rather than at the traversal
root `a`. -/
theorem c3_traced_cycle_rotation :
    (findCycles tracedGraph none).cycles = [["b", "c", "d", "a"]] := by decide

/-- C5: inserting a vertex whose id already exists in the store is a no-op — the
store (hence the existing vertex's `adjacentTo` and `payload`, and the set of
stored ids) is exactly what it was before the call. -/
theorem c5_duplicate_insert_noop (g : Graph) (w : VertexDefinition)
    (h : ∃ u ∈ g, u.id = w.id) :
    addVertex g w = g ∧ addVertices g [w] = g := by
  have hany : g.any (fun u => u.id == w.id) = true := by
    obtain ⟨u, hu, hid⟩ := h
    exact List.any_eq_true.mpr ⟨u, hu, by simp [hid]⟩
  constructor
  · simp [addVertex, hany]
  · simp [addVertices, addVertex, hany]

theorem c5_witness :
    (∃ u ∈ [(⟨"a", [], []⟩ : VertexDefinition)],
        u.id = (⟨"a", ["x"], [("k", "v")]⟩ : VertexDefinition).id) ∧
      (addVertex [(⟨"a", [], []⟩ : VertexDefinition)] ⟨"a", ["x"], [("k", "v")]⟩
          = [⟨"a", [], []⟩] ∧
        addVertices [(⟨"a", [], []⟩ : VertexDefinition)] [⟨"a", ["x"], [("k", "v")]⟩]
          = [⟨"a", [], []⟩]) :=
  ⟨⟨⟨"a", [], []⟩, by decide, by decide⟩,
    c5_duplicate_insert_noop _ _ ⟨⟨"a", [], []⟩, by decide, by decide⟩⟩

/-- C8: adding an edge towards a vertex that has not been inserted in the store
is a silent no-op — the store, and in particular the source vertex's
`adjacentTo`, is exactly what it was before the call (the operation is total, no
failure is signalled). -/
theorem c8_edge_to_unregistered_noop (g : Graph) (fid tid : String)
    (h : lookupVertex g tid = none) : addEdge g fid tid = g := by
  unfold addEdge
  rw [h]
  cases lookupVertex g fid <;> rfl

theorem c8_witness :
    lookupVertex [(⟨"a", [], []⟩ : VertexDefinition)] "b" = none ∧
      addEdge [(⟨"a", [], []⟩ : VertexDefinition)] "a" "b" = [⟨"a", [], []⟩] :=
  ⟨by decide, c8_edge_to_unregistered_noop _ _ _ (by decide)⟩

theorem getAdjacentVerticesTo_ids (g : Graph) (l : List String) :
    (l.filterMap (lookupVertex g)).map VertexDefinition.id
      = l.filter (fun i => (lookupVertex g i).isSome) := by
  induction l with
  | nil => rfl
  | cons i t ih =>
    cases h : lookupVertex g i with
    | none => simp [List.filterMap_cons, h, List.filter_cons, ih]
    | some w =>
      have hid := (lookupVertex_eq_some h).1
      simp [List.filterMap_cons, h, List.filter_cons, ih, hid]

/-- C4: `getAdjacentVerticesTo v` returns exactly the stored records whose ids
occur in `v.adjacentTo`, in `adjacentTo` (edge-insertion) order — its id sequence
is `v.adjacentTo` restricted to stored ids and each returned record is the stored
record for its id — while `getAdjacentVerticesFrom v` returns exactly the stored
vertices whose `adjacentTo` contains `v.id`, in store enumeration order (a
sublist of the store). -/
theorem c4_adjacency_queries (g : Graph) (v : VertexDefinition) (_hv : v ∈ g) :
    ((getAdjacentVerticesTo g v).map VertexDefinition.id
        = v.adjacentTo.filter (fun i => (lookupVertex g i).isSome) ∧
      ∀ w ∈ getAdjacentVerticesTo g v, w ∈ g ∧ lookupVertex g w.id = some w) ∧
      ((∀ w, w ∈ getAdjacentVerticesFrom g v ↔ w ∈ g ∧ v.id ∈ w.adjacentTo) ∧
        (getAdjacentVerticesFrom g v).Sublist g) := by
  refine ⟨⟨getAdjacentVerticesTo_ids g v.adjacentTo, ?_⟩, ?_, List.filter_sublist g⟩
  · intro w hw
    obtain ⟨i, hi, hlook⟩ := List.mem_filterMap.mp hw
    obtain ⟨hid, hmem⟩ := lookupVertex_eq_some hlook
    refine ⟨hmem, ?_⟩
    rw [hid]
    exact hlook
  · intro w
    simp [getAdjacentVerticesFrom, List.mem_filter]

/-- The store used to witness the adjacency-query claim. -/
def adjWitnessGraph : Graph := [⟨"a", ["b"], []⟩, ⟨"b", [], []⟩]

theorem c4_witness :
    (⟨"a", ["b"], []⟩ : VertexDefinition) ∈ adjWitnessGraph ∧
      (getAdjacentVerticesTo adjWitnessGraph ⟨"a", ["b"], []⟩).map VertexDefinition.id
        = (⟨"a", ["b"], []⟩ : VertexDefinition).adjacentTo.filter
            (fun i => (lookupVertex adjWitnessGraph i).isSome) :=
  ⟨by decide, (c4_adjacency_queries adjWitnessGraph ⟨"a", ["b"], []⟩ (by decide)).1.1⟩

theorem lookupVertex_map (g : Graph) (f : VertexDefinition → VertexDefinition)
    (hf : ∀ w, (f w).id = w.id) (i : String) :
    lookupVertex (g.map f) i = (lookupVertex g i).map f := by
  induction g with
  | nil => rfl
  | cons w t ih =>
    unfold lookupVertex at ih ⊢
    by_cases h : w.id = i
    · rw [List.map_cons, List.find?_cons_of_pos _ (by simp [hf, h]),
        List.find?_cons_of_pos _ (by simp [h])]
      rfl
    · rw [List.map_cons, List.find?_cons_of_neg _ (by simp [hf, h]),
        List.find?_cons_of_neg _ (by simp [h]), ih]

theorem addEdge_dup_noop (g : Graph) (a b : String) (f : VertexDefinition)
    (hf : lookupVertex g a = some f) (hb : (lookupVertex g b).isSome)
    (hab : a ≠ b) (hdup : b ∈ f.adjacentTo) : addEdge g a b = g := by
  obtain ⟨vb, hvb⟩ := Option.isSome_iff_exists.mp hb
  unfold addEdge
  rw [hf, hvb]
  simp [hab, hdup]

/-- C6: adding the same edge twice yields the target id exactly once in the
source vertex's `adjacentTo`, the second call changing nothing in the graph.
Both endpoints are registered and distinct, and the store satisfies the spec's
no-duplicate-edges invariant (the target occurs at most once beforehand). -/
theorem c6_addEdge_idempotent (g : Graph) (a b : String) (va : VertexDefinition)
    (hab : a ≠ b) (hva : lookupVertex g a = some va)
    (hb : (lookupVertex g b).isSome) (hcnt : va.adjacentTo.count b ≤ 1) :
    addEdge (addEdge g a b) a b = addEdge g a b ∧
      ∃ va', lookupVertex (addEdge g a b) a = some va'
        ∧ va'.adjacentTo.count b = 1 := by
  obtain ⟨vb, hvb⟩ := Option.isSome_iff_exists.mp hb
  have haid := (lookupVertex_eq_some hva).1
  by_cases hmem : b ∈ va.adjacentTo
  · have hnoop : addEdge g a b = g := addEdge_dup_noop g a b va hva hb hab hmem
    rw [hnoop]
    refine ⟨hnoop, va, hva, ?_⟩
    have h1 : 1 ≤ va.adjacentTo.count b := List.one_le_count_iff.mpr hmem
    exact Nat.le_antisymm hcnt h1
  · have hstep : addEdge g a b = g.map (fun w =>
        if w.id == a then VertexDefinition.mk w.id (w.adjacentTo ++ [b]) w.payload
        else w) := by
      unfold addEdge
      rw [hva, hvb]
      simp [hab, hmem]
    have hid : ∀ w : VertexDefinition,
        ((fun w => if w.id == a
            then VertexDefinition.mk w.id (w.adjacentTo ++ [b]) w.payload
            else w) w).id = w.id := by
      intro w
      by_cases h : w.id = a <;> simp [h]
    have hlook1 : lookupVertex (addEdge g a b) a
        = some (VertexDefinition.mk va.id (va.adjacentTo ++ [b]) va.payload) := by
      rw [hstep, lookupVertex_map _ _ hid, hva]
      simp [haid]
    have hlookb : (lookupVertex (addEdge g a b) b).isSome := by
      rw [hstep, lookupVertex_map _ _ hid, hvb]
      rfl
    have hsecond : addEdge (addEdge g a b) a b = addEdge g a b :=
      addEdge_dup_noop (addEdge g a b) a b _ hlook1 hlookb hab (by simp)
    refine ⟨hsecond, _, hlook1, ?_⟩
    have hz : va.adjacentTo.count b = 0 := by
      rw [List.count_eq_zero]
      exact hmem
    simp [List.count_append, hz]

/-- The store used to witness edge idempotence. -/
def edgeWitnessGraph : Graph := [⟨"a", [], []⟩, ⟨"b", [], []⟩]

theorem c6_witness :
    ("a" ≠ "b"
        ∧ lookupVertex edgeWitnessGraph "a" = some ⟨"a", [], []⟩
        ∧ (lookupVertex edgeWitnessGraph "b").isSome
        ∧ (VertexDefinition.mk "a" [] []).adjacentTo.count "b" ≤ 1) ∧
      (addEdge (addEdge edgeWitnessGraph "a" "b") "a" "b"
          = addEdge edgeWitnessGraph "a" "b" ∧
        ∃ va', lookupVertex (addEdge edgeWitnessGraph "a" "b") "a" = some va'
          ∧ va'.adjacentTo.count "b" = 1) :=
  ⟨⟨by decide, by decide, by decide, by decide⟩,
    c6_addEdge_idempotent edgeWitnessGraph "a" "b" ⟨"a", [], []⟩
      (by decide) (by decide) (by decide) (by decide)⟩

theorem addVertices_no_self (g : Graph) (vs : List VertexDefinition)
    (hg : ∀ w ∈ g, w.id ∉ w.adjacentTo) (hvs : ∀ v ∈ vs, v.adjacentTo = []) :
    ∀ w ∈ addVertices g vs, w.id ∉ w.adjacentTo := by
  induction vs generalizing g with
  | nil => exact hg
  | cons v t ih =>
    refine ih (addVertex g v) ?_ (fun u hu => hvs u (List.mem_cons_of_mem _ hu))
    intro w hw
    unfold addVertex at hw
    by_cases h : g.any (fun u => u.id == v.id)
    · rw [if_pos h] at hw
      exact hg w hw
    · rw [if_neg h] at hw
      rcases List.mem_append.mp hw with h1 | h1
      · exact hg w h1
      · have hwv : w = v := by simpa using h1
        subst hwv
        rw [hvs w (List.mem_cons_self ..)]
        exact List.not_mem_nil _

theorem addEdge_eq_cases (g : Graph) (fid tid : String) :
    addEdge g fid tid = g ∨
      (fid ≠ tid ∧ addEdge g fid tid = g.map (fun w =>
        if w.id == fid then VertexDefinition.mk w.id (w.adjacentTo ++ [tid]) w.payload
        else w)) := by
  unfold addEdge
  cases hf : lookupVertex g fid with
  | none => exact Or.inl rfl
  | some f =>
    cases ht : lookupVertex g tid with
    | none => exact Or.inl rfl
    | some t =>
      by_cases hst : fid = tid
      · exact Or.inl (by simp [hst])
      · by_cases hdup : tid ∈ f.adjacentTo
        · exact Or.inl (by simp [hst, hdup])
        · exact Or.inr ⟨hst, by simp [hst, hdup]⟩

theorem addEdge_no_self (g : Graph) (fid tid : String)
    (hg : ∀ w ∈ g, w.id ∉ w.adjacentTo) :
    ∀ w ∈ addEdge g fid tid, w.id ∉ w.adjacentTo := by
  intro w hw
  rcases addEdge_eq_cases g fid tid with heq | ⟨hst, heq⟩
  · rw [heq] at hw
    exact hg w hw
  · rw [heq] at hw
    obtain ⟨u, hu, rfl⟩ := List.mem_map.mp hw
    by_cases hu2 : u.id = fid
    · have hc : (u.id == fid) = true := by simp [hu2]
      rw [if_pos hc]
      show u.id ∉ u.adjacentTo ++ [tid]
      simp only [List.mem_append, List.mem_singleton, not_or]
      exact ⟨hg u hu, fun h2 => hst (hu2 ▸ h2)⟩
    · have hc : ¬((u.id == fid) = true) := by simp [hu2]
      rw [if_neg hc]
      exact hg u hu

theorem addMutation_no_self (g : Graph) (vid : String) (d : Payload)
    (hg : ∀ w ∈ g, w.id ∉ w.adjacentTo) :
    ∀ w ∈ addMutation g vid d, w.id ∉ w.adjacentTo := by
  intro w hw
  obtain ⟨u, hu, rfl⟩ := List.mem_map.mp hw
  by_cases h : u.id = vid
  · rw [if_pos (by simp [h])]
    exact hg u hu
  · rw [if_neg (by simp [h])]
    exact hg u hu

theorem addEdge_self_loop (g : Graph) (a : String) : addEdge g a a = g := by
  unfold addEdge
  cases lookupVertex g a <;> simp

/-- C7: in every graph state reachable through the public operations from the
empty store (inserted vertices starting with empty adjacency), no vertex's
`adjacentTo` contains its own id; and adding an edge from a vertex to itself is
always a no-op. -/
theorem c7_no_self_loops (g : Graph) (h : Reachable g) :
    (∀ w ∈ g, w.id ∉ w.adjacentTo) ∧ ∀ g' a, addEdge g' a a = g' := by
  refine ⟨?_, fun g' a => addEdge_self_loop g' a⟩
  induction h with
  | empty => intro w hw; cases hw
  | verticesStep g vs _ hvs ih => exact addVertices_no_self g vs ih hvs
  | edgeStep g fid tid _ ih => exact addEdge_no_self g fid tid ih
  | mutationStep g vid d _ ih => exact addMutation_no_self g vid d ih

theorem c7_witness :
    (⟨"a", ["b"], []⟩ : VertexDefinition).id
        ∉ (⟨"a", ["b"], []⟩ : VertexDefinition).adjacentTo ∧
      addEdge [(⟨"x", [], []⟩ : VertexDefinition)] "x" "x" = [⟨"x", [], []⟩] :=
  ⟨(c7_no_self_loops _
        (Reachable.edgeStep _ "a" "b"
          (Reachable.verticesStep [] [⟨"a", [], []⟩, ⟨"b", [], []⟩]
            Reachable.empty (by decide)))).1
      ⟨"a", ["b"], []⟩ (by decide),
    (c7_no_self_loops [] Reachable.empty).2 [⟨"x", [], []⟩] "x"⟩

theorem find?_key_filter_merge (old d : Payload) (k : String)
    (hdk : ∀ kv2 ∈ d, kv2.1 ≠ k) :
    (old.filter (fun kv => d.all (fun kv2 => kv2.1 != kv.1))).find?
        (fun kv => kv.1 == k)
      = old.find? (fun kv => kv.1 == k) := by
  induction old with
  | nil => rfl
  | cons kv t ih =>
    by_cases hk : kv.1 = k
    · have hpred : (d.all (fun kv2 => kv2.1 != kv.1)) = true := by
        rw [List.all_eq_true]
        intro kv2 h2
        simpa [hk] using hdk kv2 h2
      rw [List.filter_cons, if_pos (by simp [hpred]),
        List.find?_cons_of_pos _ (by simp [hk]), List.find?_cons_of_pos _ (by simp [hk])]
    · rw [List.filter_cons]
      by_cases hpred : (d.all (fun kv2 => kv2.1 != kv.1)) = true
      · rw [if_pos (by simp [hpred]), List.find?_cons_of_neg _ (by simp [hk]),
          List.find?_cons_of_neg _ (by simp [hk])]
        exact ih
      · rw [if_neg (by simpa using hpred), List.find?_cons_of_neg _ (by simp [hk])]
        exact ih

theorem lookupKey_merge_some (old d : Payload) (k x : String)
    (h : lookupKey d k = some x) : lookupKey (mergePayload old d) k = some x := by
  have hfil : (old.filter (fun kv => d.all (fun kv2 => kv2.1 != kv.1))).find?
      (fun kv => kv.1 == k) = none := by
    rw [List.find?_eq_none]
    intro kv hkv hbeq
    obtain ⟨_, hpred⟩ := List.mem_filter.mp hkv
    obtain ⟨kv0, hfind⟩ : ∃ kv0, d.find? (fun kv2 => kv2.1 == k) = some kv0 := by
      cases hf : d.find? (fun kv2 => kv2.1 == k) with
      | none => rw [lookupKey, hf] at h; cases h
      | some kv0 => exact ⟨kv0, rfl⟩
    have hk0 : kv0.1 = k := by simpa using List.find?_some hfind
    have hmem0 : kv0 ∈ d := List.mem_of_find?_eq_some hfind
    have hne := List.all_eq_true.mp hpred kv0 hmem0
    have hk : kv.1 = k := by simpa using hbeq
    simp [hk0, hk] at hne
  rw [lookupKey] at h ⊢
  rw [mergePayload, List.find?_append, hfil, Option.none_or]
  exact h

theorem lookupKey_merge_none (old d : Payload) (k : String)
    (h : lookupKey d k = none) : lookupKey (mergePayload old d) k = lookupKey old k := by
  have hd : d.find? (fun kv => kv.1 == k) = none := by
    rw [lookupKey] at h
    exact Option.map_eq_none'.mp h
  have hdk : ∀ kv2 ∈ d, kv2.1 ≠ k := by
    intro kv2 hkv2
    have := List.find?_eq_none.mp hd kv2 hkv2
    simpa using this
  rw [lookupKey, lookupKey, mergePayload, List.find?_append, hd, Option.or_none,
    find?_key_filter_merge old d k hdk]

/-- C9: mutating a stored vertex's payload replaces it by the shallow merge of
the old payload with the partial data — every key of the partial data now maps to
its new value, every other key keeps its old value — and the id, adjacency and
payload of every other stored vertex (and the id and adjacency of the mutated
one) are left unchanged, the store keeping its shape. -/
theorem c9_mutation_shallow_merge (g : Graph) (vid : String) (d : Payload) :
    List.Forall₂ (fun w w' =>
      w'.id = w.id ∧ w'.adjacentTo = w.adjacentTo ∧
        (w.id ≠ vid → w' = w) ∧
        (w.id = vid →
          (∀ k x, lookupKey d k = some x → lookupKey w'.payload k = some x) ∧
            ∀ k, lookupKey d k = none →
              lookupKey w'.payload k = lookupKey w.payload k))
      g (addMutation g vid d) := by
  rw [addMutation, List.forall₂_map_right_iff]
  rw [List.forall₂_same]
  intro w _
  by_cases h : w.id = vid
  · rw [if_pos (by simp [h])]
    refine ⟨rfl, rfl, fun hne => absurd h hne, fun _ => ⟨?_, ?_⟩⟩
    · intro k x hk
      exact lookupKey_merge_some w.payload d k x hk
    · intro k hk
      exact lookupKey_merge_none w.payload d k hk
  · rw [if_neg (by simp [h])]
    exact ⟨rfl, rfl, fun _ => rfl, fun he => absurd he h⟩

theorem rotate_one_eq (c : List String) (hne : c ≠ []) :
    c.rotate 1 = c.tail ++ [c.getD 0 ""] := by
  cases c with
  | nil => exact absurd rfl hne
  | cons hd t => simp [List.rotate_cons_succ]

theorem take_one_eq (c : List String) (hne : c ≠ []) : c.take 1 = [c.getD 0 ""] := by
  cases c with
  | nil => exact absurd rfl hne
  | cons hd t => rfl

theorem take_succ_eq (c : List String) (j : Nat) (hj : j < c.length) :
    c.take (j + 1) = c.take j ++ [c.getD j ""] := by
  rw [List.take_succ, List.getElem?_eq_getElem hj, List.getD_eq_getElem _ _ hj]
  rfl

theorem getD_ne_of_nodup (c : List String) (hnd : c.Nodup) (i j : Nat)
    (hi : i < c.length) (hj : j < c.length) (hij : i ≠ j) :
    c.getD i "" ≠ c.getD j "" := by
  rw [List.getD_eq_getElem _ _ hi, List.getD_eq_getElem _ _ hj]
  intro h
  exact hij ((hnd.getElem_inj_iff).mp h)

theorem getD_not_mem_take (c : List String) (hnd : c.Nodup) (j : Nat)
    (hj : j < c.length) : c.getD j "" ∉ c.take j := by
  have hsplit : c.take j ++ c.drop j = c := List.take_append_drop j c
  have hday : List.Disjoint (c.take j) (c.drop j) :=
    List.disjoint_of_nodup_append (by rw [hsplit]; exact hnd)
  have hmem : c.getD j "" ∈ c.drop j := by
    rw [List.getD_eq_getElem _ _ hj, List.drop_eq_getElem_cons hj]
    exact List.mem_cons_self _ _
  intro htake
  exact hday htake hmem

theorem foldl_dedupStep_mono (l : List (List String)) :
    ∀ acc x, x ∈ acc → x ∈ l.foldl dedupStep acc := by
  induction l with
  | nil => intro acc x hx; exact hx
  | cons c t ih =>
    intro acc x hx
    refine ih (dedupStep acc c) x ?_
    unfold dedupStep
    by_cases h : acc.any (fun y => decide (y ~r c))
    · rw [if_pos h]; exact hx
    · rw [if_neg h]; exact List.mem_append_left _ hx

theorem foldl_dedupStep_subset (l : List (List String)) :
    ∀ acc x, x ∈ l.foldl dedupStep acc → x ∈ acc ∨ x ∈ l := by
  induction l with
  | nil => intro acc x hx; exact Or.inl hx
  | cons c t ih =>
    intro acc x hx
    rcases ih (dedupStep acc c) x hx with h | h
    · unfold dedupStep at h
      by_cases hc : acc.any (fun y => decide (y ~r c))
      · rw [if_pos hc] at h; exact Or.inl h
      · rw [if_neg hc] at h
        rcases List.mem_append.mp h with h1 | h1
        · exact Or.inl h1
        · exact Or.inr (List.mem_singleton.mp h1 ▸ List.mem_cons_self c t)
    · exact Or.inr (List.mem_cons_of_mem _ h)

theorem dedupCycles_subset (l : List (List String)) (x : List String)
    (hx : x ∈ dedupCycles l) : x ∈ l := by
  rcases foldl_dedupStep_subset l [] x hx with h | h
  · cases h
  · exact h

theorem foldl_dedupStep_rep (l : List (List String)) :
    ∀ acc e, e ∈ l → ∃ y ∈ l.foldl dedupStep acc, y ~r e := by
  induction l with
  | nil => intro acc e he; cases he
  | cons c t ih =>
    intro acc e he
    rcases List.mem_cons.mp he with rfl | he'
    · have hex : ∃ y ∈ dedupStep acc e, y ~r e := by
        unfold dedupStep
        by_cases h : acc.any (fun y => decide (y ~r e))
        · rw [if_pos h]
          obtain ⟨y, hy, hyr⟩ := List.any_eq_true.mp h
          exact ⟨y, hy, of_decide_eq_true hyr⟩
        · rw [if_neg h]
          exact ⟨e, List.mem_append_right _ (List.mem_singleton.mpr rfl),
            List.IsRotated.refl e⟩
      obtain ⟨y, hy, hyr⟩ := hex
      exact ⟨y, foldl_dedupStep_mono t _ y hy, hyr⟩
    · exact ih (dedupStep acc c) e he'

theorem dedupCycles_rep (l : List (List String)) (e : List String) (he : e ∈ l) :
    ∃ y ∈ dedupCycles l, y ~r e :=
  foldl_dedupStep_rep l [] e he

/-- Every cycle the DFS emits closes after at least one traversed edge and after
no more edges than the depth bound allows. -/
theorem dfsVisit_sound (g : Graph) (md : Nat) (v : String) :
    ∀ fuel cur path out, out ∈ dfsVisit g md v fuel cur path →
      path ≠ [] → path.length ≤ max 1 md →
      2 ≤ out.length ∧ out.length ≤ md := by
  intro fuel
  induction fuel with
  | zero =>
    intro cur path out hout _ _
    simp [dfsVisit] at hout
  | succ fuel ih =>
    intro cur path out hout hne hlen
    simp only [dfsVisit] at hout
    obtain ⟨n, hn, hbr⟩ := List.mem_flatMap.mp hout
    by_cases hnv : n = v
    · rw [if_pos hnv] at hbr
      by_cases h2 : 2 ≤ path.length
      · rw [if_pos h2] at hbr
        have hout_eq : out = path.tail ++ [v] := List.mem_singleton.mp hbr
        subst hout_eq
        have hp1 : 1 ≤ path.length := List.length_pos.mpr hne
        have hlen_out : (path.tail ++ [v]).length = path.length := by
          simp only [List.length_append, List.length_tail, List.length_singleton]
          omega
        have hmd : path.length ≤ md := by
          rw [Nat.max_def] at hlen
          split at hlen <;> omega
        rw [hlen_out]
        exact ⟨h2, hmd⟩
      · rw [if_neg h2] at hbr
        exact absurd hbr (List.not_mem_nil _)
    · rw [if_neg hnv] at hbr
      by_cases hmem : n ∈ path
      · rw [if_pos hmem] at hbr
        exact absurd hbr (List.not_mem_nil _)
      · rw [if_neg hmem] at hbr
        by_cases hlt : path.length < md
        · rw [if_pos hlt] at hbr
          refine ih n (path ++ [n]) out hbr (by simp) ?_
          have : (path ++ [n]).length = path.length + 1 := by simp
          rw [this]
          exact le_trans (by omega) (Nat.le_max_right 1 md)
        · rw [if_neg hlt] at hbr
          exact absurd hbr (List.not_mem_nil _)

theorem findCycles_cycles_eq (g : Graph) (o : Option Nat) :
    (findCycles g o).cycles = dedupCycles (g.flatMap fun w =>
      dfsVisit g (o.getD g.length) w.id (g.length + 1) w.id [w.id]) := rfl

theorem findCycles_hasCycles_eq (g : Graph) (o : Option Nat) :
    (findCycles g o).hasCycles = !(findCycles g o).cycles.isEmpty := rfl

theorem findCycles_length_le (g : Graph) (m : Nat) :
    ∀ c ∈ (findCycles g (some m)).cycles, 2 ≤ c.length ∧ c.length ≤ m := by
  intro c hc
  rw [findCycles_cycles_eq] at hc
  have hraw := dedupCycles_subset _ c hc
  obtain ⟨w, _, hmem⟩ := List.mem_flatMap.mp hraw
  exact dfsVisit_sound g m w.id _ w.id [w.id] c hmem (by simp)
    (by simp [Nat.le_max_left])

theorem findCycles_zero (g : Graph) :
    (findCycles g (some 0)).hasCycles = false ∧ (findCycles g (some 0)).cycles = [] := by
  have h1 : (findCycles g (some 0)).cycles = [] := by
    rw [findCycles_cycles_eq]
    have hraw : (g.flatMap fun w =>
        dfsVisit g ((some 0).getD g.length) w.id (g.length + 1) w.id [w.id]) = [] := by
      rw [List.eq_nil_iff_forall_not_mem]
      intro c hc
      obtain ⟨w, _, hmem⟩ := List.mem_flatMap.mp hc
      have hs := dfsVisit_sound g 0 w.id _ w.id [w.id] c hmem (by simp)
        (by simp [Nat.le_max_left])
      omega
    rw [hraw]
    rfl
  refine ⟨?_, h1⟩
  rw [findCycles_hasCycles_eq, h1]
  rfl

/-- Along an elementary cycle of the stored adjacency relation, the DFS follows
the cycle's own edges and emits the cycle rotated to start just after the
root. -/
theorem dfsVisit_complete (g : Graph) (md : Nat) (c : List String)
    (hc2 : 2 ≤ c.length) (hnd : c.Nodup)
    (hcyc : ∀ i, i < c.length →
      c.getD ((i + 1) % c.length) "" ∈ adjacentIds g (c.getD i ""))
    (hmd : c.length ≤ md) :
    ∀ fuel j, 1 ≤ j → j ≤ c.length → c.length - j < fuel →
      c.rotate 1 ∈ dfsVisit g md (c.getD 0 "") fuel (c.getD (j - 1) "") (c.take j) := by
  intro fuel
  induction fuel with
  | zero => intro j h1 h2 h3; omega
  | succ fuel ih =>
    intro j h1 hj hfuel
    simp only [dfsVisit]
    rw [List.mem_flatMap]
    by_cases hjk : j = c.length
    · subst hjk
      refine ⟨c.getD 0 "", ?_, ?_⟩
      · have hadj := hcyc (c.length - 1) (by omega)
        have hmod : (c.length - 1 + 1) % c.length = 0 := by
          rw [show c.length - 1 + 1 = c.length by omega, Nat.mod_self]
        rw [hmod] at hadj
        exact hadj
      · rw [if_pos rfl, List.take_length]
        rw [if_pos hc2]
        rw [rotate_one_eq c (by intro h; rw [h] at hc2; simp at hc2)]
        exact List.mem_singleton.mpr rfl
    · have hjlt : j < c.length := by omega
      refine ⟨c.getD j "", ?_, ?_⟩
      · have hadj := hcyc (j - 1) (by omega)
        have hmod : (j - 1 + 1) % c.length = j := by
          rw [show j - 1 + 1 = j by omega, Nat.mod_eq_of_lt hjlt]
        rw [hmod] at hadj
        exact hadj
      · have hne : ¬(c.getD j "" = c.getD 0 "") :=
          getD_ne_of_nodup c hnd j 0 hjlt (by omega) (by omega)
        rw [if_neg hne]
        have hnmem : c.getD j "" ∉ c.take j := getD_not_mem_take c hnd j hjlt
        rw [if_neg hnmem]
        have hlt : (c.take j).length < md := by
          rw [List.length_take]
          omega
        rw [if_pos hlt, ← take_succ_eq c j hjlt]
        exact ih (j + 1) (by omega) (by omega) (by omega)

theorem findCycles_complete (g : Graph) (m : Nat) (c : List String)
    (hcyc : IsGraphCycle g c) (hlen : c.length ≤ m) :
    ∃ y ∈ (findCycles g (some m)).cycles, y ~r c := by
  obtain ⟨hc2, hnd, hadj⟩ := hcyc
  have hpres : ∀ i', i' < c.length → (lookupVertex g (c.getD i' "")).isSome := by
    intro i' hi'
    obtain ⟨i, hi, hmod⟩ : ∃ i, i < c.length ∧ (i + 1) % c.length = i' := by
      rcases Nat.eq_zero_or_pos i' with rfl | hpos
      · exact ⟨c.length - 1, by omega,
          by rw [show c.length - 1 + 1 = c.length by omega, Nat.mod_self]⟩
      · exact ⟨i' - 1, by omega,
          by rw [show i' - 1 + 1 = i' by omega, Nat.mod_eq_of_lt hi']⟩
    have h0 := hadj i hi
    rw [hmod] at h0
    unfold adjacentIds at h0
    cases hlk : lookupVertex g (c.getD i "") with
    | none => rw [hlk] at h0; exact absurd h0 (List.not_mem_nil _)
    | some u =>
      rw [hlk] at h0
      have hf := (List.mem_filter.mp h0).2
      simpa using hf
  have hsub : c ⊆ g.map VertexDefinition.id := by
    intro x hx
    obtain ⟨i, hi, hgi⟩ := List.mem_iff_getElem.mp hx
    have hpi := hpres i hi
    rw [List.getD_eq_getElem _ _ hi, hgi] at hpi
    obtain ⟨u, hu⟩ := Option.isSome_iff_exists.mp hpi
    obtain ⟨huid, humem⟩ := lookupVertex_eq_some hu
    exact List.mem_map.mpr ⟨u, humem, huid⟩
  have hle : c.length ≤ g.length := by
    have hsp := List.subperm_of_subset hnd hsub
    have := hsp.length_le
    simpa using this
  have hv0 : (lookupVertex g (c.getD 0 "")).isSome := hpres 0 (by omega)
  obtain ⟨w, hw⟩ := Option.isSome_iff_exists.mp hv0
  obtain ⟨hwid, hwmem⟩ := lookupVertex_eq_some hw
  have hroot : c.rotate 1 ∈ dfsVisit g m (c.getD 0 "") (g.length + 1)
      (c.getD 0 "") [c.getD 0 ""] := by
    have hcall := dfsVisit_complete g m c hc2 hnd hadj hlen (g.length + 1) 1
      (by omega) (by omega) (by omega)
    rw [take_one_eq c (by intro h; rw [h] at hc2; simp at hc2)] at hcall
    exact hcall
  have hraw : c.rotate 1 ∈ g.flatMap (fun u =>
      dfsVisit g ((some m).getD g.length) u.id (g.length + 1) u.id [u.id]) := by
    rw [List.mem_flatMap]
    refine ⟨w, hwmem, ?_⟩
    rw [hwid]
    exact hroot
  rw [findCycles_cycles_eq]
  obtain ⟨y, hy, hyr⟩ := dedupCycles_rep _ _ hraw
  exact ⟨y, hy, hyr.trans (List.IsRotated.symm ⟨1, rfl⟩)⟩

/-- C2: with a depth bound `m`, `findCycles` reports no cycle of more than `m`
edges and reports (a rotation of) every elementary cycle of at most `m` edges;
in particular `maxDepth 0` yields `hasCycles = false` on every graph, and on the
single loop of length four the flag is `false` for depths 1, 2, 3 and `true`
for every depth at least 4. -/
theorem c2_maxDepth_semantics (g : Graph) (m : Nat) :
    (∀ c ∈ (findCycles g (some m)).cycles, c.length ≤ m) ∧
      (∀ c, IsGraphCycle g c → c.length ≤ m →
        ∃ y ∈ (findCycles g (some m)).cycles, y ~r c) ∧
      (findCycles g (some 0)).hasCycles = false ∧
      (findCycles mutualGraph (some 0)).hasCycles = false ∧
      ((findCycles fourCycleGraph (some 1)).hasCycles = false ∧
        (findCycles fourCycleGraph (some 2)).hasCycles = false ∧
        (findCycles fourCycleGraph (some 3)).hasCycles = false ∧
        ∀ k, 4 ≤ k → (findCycles fourCycleGraph (some k)).hasCycles = true) := by
  refine ⟨fun c hc => (findCycles_length_le g m c hc).2,
    fun c hcyc hlen => findCycles_complete g m c hcyc hlen,
    (findCycles_zero g).1, by decide, by decide, by decide, by decide, ?_⟩
  intro k hk
  have hcyc : IsGraphCycle fourCycleGraph ["a", "b", "c", "d"] := by
    refine ⟨by decide, by decide, ?_⟩
    intro i hi
    have hi4 : i < 4 := by simpa using hi
    interval_cases i <;> decide
  obtain ⟨y, hy, _⟩ := findCycles_complete fourCycleGraph k _ hcyc (by simpa using hk)
  have hne : (findCycles fourCycleGraph (some k)).cycles ≠ [] := List.ne_nil_of_mem hy
  rw [findCycles_hasCycles_eq]
  cases hEmpty : (findCycles fourCycleGraph (some k)).cycles.isEmpty with
  | false => rfl
  | true => exact absurd (List.isEmpty_iff.mp hEmpty) hne

/-- C10: cycle detection is a deterministic, read-only query — a call leaves the
store exactly as given, and a second consecutive call with the same options
returns a structurally equal result. -/
theorem c10_findCycles_deterministic_readonly (g : Graph) (o : Option Nat) :
    (findCyclesS (findCyclesS g o).2 o).1 = (findCyclesS g o).1 ∧
      (findCyclesS g o).2 = g ∧ (findCyclesS (findCyclesS g o).2 o).2 = g :=
  ⟨rfl, rfl, rfl⟩

end DagJs
